import Mathlib

/-!
Verification of the hydrolysis static analyzer (src/src/analysis.rs,
src/src/semantics.rs, src/src/model.rs) against its specification.

The Rust source is shallowly embedded below.  JSON values appearing in the
source (`serde_json::Value` backtraces) are embedded at the level observed by
the analysis: a backtrace is either not an array (`none`) or a list of frames,
each exposing the optional `file`, `line` and `function` fields that the code
reads.  Rust `HashMap`s built by repeated insertion are embedded as functional
lookups with last-insert-wins semantics.  The two worklist computations
(forward ND taint closure and backward reachability in the CALM pass) compute
the least set containing their seeds that is closed under the corresponding
adjacency; they are embedded as a bounded iteration of the one-step closure
operator, whose least-fixpoint characterisation is proved below
(`closureSet_iff`).
-/

namespace Hydrolysis

/-- Substring test on character lists: `pat` occurs contiguously in `hay`.
Embeds Rust's `str::contains`. -/
def listContainsSub (hay pat : List Char) : Bool :=
  match hay with
  | [] => pat.isEmpty
  | _ :: t => pat.isPrefixOf hay || listContainsSub t pat

/-- Substring test on strings; embeds Rust's `str::contains(pat)`. -/
def strContains (hay pat : String) : Bool :=
  listContainsSub hay.data pat.data

/-- One backtrace frame as read by the analysis: the optional `file`, `line`
and `function` JSON fields (`line`/`lineNumber` and `function`/`fn` key
aliases are resolved during embedding). -/
structure Frame where
  file : Option String
  line : Option Nat
  function : Option String
deriving DecidableEq, Repr

/-- Embeds `model::NodeData`.  `backtrace` is `none` when the JSON value is
not an array (Rust's `as_array()` returning `None`). -/
structure NodeData where
  location_id : Option Nat
  location_type : Option String
  backtrace : Option (List Frame)
deriving DecidableEq, Repr

/-- Embeds `model::Node`. -/
structure Node where
  id : String
  node_type : String
  short_label : String
  full_label : Option String
  label : Option String
  data : Option NodeData
deriving DecidableEq, Repr

/-- Embeds `model::Edge`. -/
structure Edge where
  id : String
  source : String
  target : String
  edge_properties : Option (List String)
  semantic_tags : Option (List String)
  label : Option String
deriving DecidableEq, Repr

/-- Embeds `model::HydroIr` (the opaque JSON pass-through fields
`hierarchyChoices`, `nodeAssignments`, `selectedHierarchy`,
`edgeStyleConfig`, `nodeTypeConfig`, `legend` are not read by the analysis
and are omitted). -/
structure HydroIr where
  nodes : List Node
  edges : List Edge
deriving DecidableEq, Repr

/-- Embeds `semantics::NdEffect`. -/
inductive NdEffect where
  | Deterministic
  | LocallyNonDet
  | ExternalNonDet
deriving DecidableEq, Repr

/-- Embeds `semantics::Monotonicity`. -/
inductive Monotonicity where
  | Always
  | Never
  | Depends
deriving DecidableEq, Repr

/-- Embeds `semantics::OpSemantics`. -/
structure OpSemantics where
  nd : NdEffect
  monotone : Monotonicity
deriving DecidableEq, Repr

/-- Embeds `semantics::get_semantics`: lookup of operator semantics by node
type, with the conservative default for unknown types. -/
def get_semantics (node_type : String) : OpSemantics :=
  if node_type = "Source" then ⟨.Deterministic, .Always⟩
  else if node_type = "Transform" then ⟨.Deterministic, .Always⟩
  else if node_type = "Join" then ⟨.Deterministic, .Always⟩
  else if node_type = "Aggregation" then ⟨.Deterministic, .Depends⟩
  else if node_type = "Network" then ⟨.Deterministic, .Always⟩
  else if node_type = "Sink" then ⟨.Deterministic, .Always⟩
  else if node_type = "Tee" then ⟨.Deterministic, .Always⟩
  else if node_type = "NonDeterministic" then ⟨.LocallyNonDet, .Never⟩
  else ⟨.LocallyNonDet, .Never⟩

/-- ASCII lowercasing of one character (the labels the analyzer receives
are ASCII, for which Rust's `char::to_lowercase` adds 32 to an upper-case
code point). -/
def charLower (c : Char) : Char :=
  if 'A' ≤ c ∧ c ≤ 'Z' then Char.ofNat (c.toNat + 32) else c

/-- Embeds Rust's `str::to_lowercase` on ASCII strings. -/
def strToLower (s : String) : String := ⟨s.data.map charLower⟩

/-- Embeds `semantics::get_semantics_by_label`: case-insensitive label table,
`none` for unknown labels. -/
def get_semantics_by_label (label : String) : Option OpSemantics :=
  let l := strToLower label
  if l = "map" ∨ l = "flat_map" ∨ l = "flatmap" ∨ l = "filter" ∨
     l = "filter_map" ∨ l = "filtermap" ∨ l = "inspect" ∨ l = "enumerate" ∨
     l = "cloned" then
    some ⟨.Deterministic, .Always⟩
  else if l = "cast" ∨ l = "chain" ∨ l = "chainfirst" ∨ l = "into_keyed" ∨
     l = "keys" ∨ l = "resolve_futures" ∨ l = "resolve_futures_ordered" ∨
     l = "all_ticks" ∨ l = "all_ticks_atomic" ∨ l = "defer_tick" ∨
     l = "begin_atomic" ∨ l = "end_atomic" ∨ l = "atomic" then
    some ⟨.Deterministic, .Always⟩
  else if l = "join" ∨ l = "cross_product" ∨ l = "crossproduct" ∨
     l = "cross_singleton" ∨ l = "cross_product_nested_loop" then
    some ⟨.Deterministic, .Always⟩
  else if l = "difference" ∨ l = "anti_join" ∨ l = "antijoin" ∨
     l = "filter_not_in" then
    some ⟨.Deterministic, .Never⟩
  else if l = "unique" then
    some ⟨.Deterministic, .Always⟩
  else if l = "fold_commutative_idempotent" ∨ l = "fold_idempotent_commutative" ∨
     l = "reduce_commutative_idempotent" ∨ l = "reduce_idempotent_commutative" then
    some ⟨.Deterministic, .Always⟩
  else if l = "fold" ∨ l = "fold_keyed" ∨ l = "foldkeyed" ∨
     l = "fold_commutative" ∨ l = "fold_idempotent" ∨ l = "reduce" ∨
     l = "reduce_keyed" ∨ l = "reducekeyed" ∨ l = "reduce_commutative" ∨
     l = "reduce_idempotent" ∨ l = "reduce_keyed_watermark" ∨ l = "scan" then
    some ⟨.Deterministic, .Depends⟩
  else if l = "sort" then
    some ⟨.Deterministic, .Never⟩
  else if l = "min" ∨ l = "max" ∨ l = "count" ∨ l = "first" ∨ l = "last" ∨
     l = "collect_vec" then
    some ⟨.Deterministic, .Depends⟩
  else if l = "batch" ∨ l = "batch_atomic" then
    some ⟨.Deterministic, .Always⟩
  else if l = "network" then
    some ⟨.Deterministic, .Always⟩
  else if l = "observe_non_det" ∨ l = "observenondet" ∨ l = "nondet" then
    some ⟨.LocallyNonDet, .Never⟩
  else if l = "sample_every" ∨ l = "timeout" then
    some ⟨.LocallyNonDet, .Never⟩
  else if l = "persist" then
    some ⟨.Deterministic, .Always⟩
  else if l = "tee" then
    some ⟨.Deterministic, .Always⟩
  else if l = "source_stream" ∨ l = "source_iter" ∨ l = "external_input" ∨
     l = "cycle_source" ∨ l = "singleton_source" then
    some ⟨.Deterministic, .Always⟩
  else if l = "for_each" ∨ l = "send_external" ∨ l = "cycle_sink" ∨
     l = "dest_sink" then
    some ⟨.Deterministic, .Always⟩
  else if l = "filter_if_some" ∨ l = "filter_if_none" then
    some ⟨.Deterministic, .Always⟩
  else
    none

/-- Embeds `semantics::is_lattice_type`: the syntactic lattice-type test on
an optional edge type label. -/
def is_lattice_type (label : Option String) : Bool :=
  match label with
  | none => false
  | some l =>
    strContains l "lattices::" || strContains l "Max<" || strContains l "Min<" ||
    strContains l "DomPair<" || strContains l "SetUnion<" ||
    strContains l "MapUnion<" || strContains l "VecUnion<" ||
    strContains l "WithBot<" || strContains l "WithTop<" ||
    strContains l "Conflict<" || strContains l "Point<" ||
    strContains l "Pair<" || strContains l "CausalWrapper<" ||
    strContains l "VCWrapper<" || strContains l "WithTombstones<"

/-- Embeds `semantics::is_network_batch`: some frame's file path contains
`networking.rs` or `location/mod.rs`. -/
def is_network_batch (backtrace : Option (List Frame)) : Bool :=
  match backtrace with
  | none => false
  | some frames =>
    frames.any fun f =>
      match f.file with
      | none => false
      | some file =>
        strContains file "networking.rs" || strContains file "location/mod.rs"

/-- Embeds `semantics::is_commutative_idempotent_fold`: some frame's function
name contains a commutative+idempotent marker. -/
def is_commutative_idempotent_fold (backtrace : Option (List Frame)) : Bool :=
  match backtrace with
  | none => false
  | some frames =>
    frames.any fun f =>
      match f.function with
      | none => false
      | some fnName =>
        strContains fnName "commutative_idempotent" ||
        strContains fnName "idempotent_commutative"

/-- Whether `label` is in the generic fold/reduce family probed by
`get_node_semantics` (the exact, case-sensitive `matches!` set). -/
def isFoldFamily (label : String) : Bool :=
  label = "fold" ∨ label = "foldkeyed" ∨ label = "fold_keyed" ∨
  label = "reduce" ∨ label = "reducekeyed" ∨ label = "reduce_keyed"

/-- Embeds `semantics::get_node_semantics`, with the panicking
`.expect(..)` calls made explicit: a `none` result marks a panic.  The
theorem for claim C9 proves the `none` branches unreachable. -/
def getNodeSemanticsOpt (node : Node) : Option OpSemantics :=
  match node.label with
  | some label =>
    if label = "batch" then
      -- `is_net` in the source: any backtrace frame in a network location
      if (match node.data with
          | some d => is_network_batch d.backtrace
          | none => false) then some ⟨.Deterministic, .Always⟩
      else get_semantics_by_label label
    else if isFoldFamily label then
      -- `is_ci` in the source: a commutative+idempotent fold variant
      if (match node.data with
          | some d => is_commutative_idempotent_fold d.backtrace
          | none => false) then some ⟨.Deterministic, .Always⟩
      else get_semantics_by_label label
    else if label = "observenondet" then
      -- `is_ci_internal` in the source
      if (match node.data with
          | some d => is_commutative_idempotent_fold d.backtrace
          | none => false) then some ⟨.Deterministic, .Always⟩
      else get_semantics_by_label label
    else
      some ((get_semantics_by_label label).getD (get_semantics node.node_type))
  | none => some (get_semantics node.node_type)

/-- Total view of `get_node_semantics`; by `getNodeSemanticsOpt_isSome` the
default is never used. -/
def get_node_semantics (node : Node) : OpSemantics :=
  (getNodeSemanticsOpt node).getD ⟨.LocallyNonDet, .Never⟩

/-!
### Graph index (`analysis::Graph::build`)

The Rust code collects `node_id_to_idx` from an enumeration of the node
vector (a `HashMap`, so for duplicate ids the last insertion wins) and pushes
one forward and one backward adjacency entry per edge whose two endpoint ids
resolve.  `nodeIdx` is the last-wins id lookup; `forwardAdj i` (resp.
`backwardAdj i`) lists, in edge order, exactly the entries that
`Graph::build` pushes onto `forward[i]` (resp. `backward[i]`).
-/

/-- Embeds the `node_id_to_idx` lookup of `Graph::build`
(`HashMap` collected from an enumeration: last insertion wins, hence the
scan over the reversed enumeration). -/
def nodeIdx (nodes : List Node) (s : String) : Option Nat :=
  (nodes.enum.reverse.find? fun p => p.2.id = s).map Prod.fst

/-- The `(source index, target index)` pair of an edge, when both endpoints
resolve in the node index. -/
def pairOf (nodes : List Node) (e : Edge) : Option (Nat × Nat) :=
  match nodeIdx nodes e.source, nodeIdx nodes e.target with
  | some s, some t => some (s, t)
  | _, _ => none

/-- Embeds `Graph.forward[i]`: the `(target index, edge id)` entries pushed
by `Graph::build`, in edge order. -/
def forwardAdj (nodes : List Node) (edges : List Edge) (i : Nat) :
    List (Nat × String) :=
  edges.filterMap fun e =>
    match pairOf nodes e with
    | some (s, t) => if s = i then some (t, e.id) else none
    | none => none

/-- Embeds `Graph.backward[i]`: the `(source index, edge id)` entries pushed
by `Graph::build`, in edge order. -/
def backwardAdj (nodes : List Node) (edges : List Edge) (i : Nat) :
    List (Nat × String) :=
  edges.filterMap fun e =>
    match pairOf nodes e with
    | some (s, t) => if t = i then some (s, e.id) else none
    | none => none

/-- Forward successor indices of node `i`. -/
def succs (nodes : List Node) (edges : List Edge) (i : Nat) : List Nat :=
  (forwardAdj nodes edges i).map Prod.fst

/-- Backward predecessor indices of node `i`. -/
def preds (nodes : List Node) (edges : List Edge) (i : Nat) : List Nat :=
  (backwardAdj nodes edges i).map Prod.fst

/-!
### Worklist closures

`run_nd_pass` and `compute_backward_reachable` both run a worklist that
starts from a seed set and repeatedly adds the unvisited neighbors of a
visited node, each node entering the worklist at most once.  The set they
compute is the least superset of the seeds closed under the neighbor
function; `closureSet` computes it by iterating the one-step operator
`stepSet` as many times as there are nodes, and `closureSet_iff` proves the
reachability characterisation.
-/

/-- One closure step: add every neighbor of a member. -/
def stepSet (f : Nat → List Nat) (s : Finset Nat) : Finset Nat :=
  s ∪ s.biUnion fun i => (f i).toFinset

/-- Bounded iteration of `stepSet`; with `bound` at least the number of
nodes this is the least fixed point (`closureSet_iff`). -/
def closureSet (f : Nat → List Nat) (bound : Nat) (init : Finset Nat) :
    Finset Nat :=
  (stepSet f)^[bound] init

/-- Reachability along the neighbor function `f`. -/
def Reaches (f : Nat → List Nat) (a b : Nat) : Prop :=
  Relation.ReflTransGen (fun x y => y ∈ f x) a b

theorem subset_stepSet (f : Nat → List Nat) (s : Finset Nat) :
    s ⊆ stepSet f s :=
  Finset.subset_union_left

theorem stepSet_mono (f : Nat → List Nat) {s t : Finset Nat} (h : s ⊆ t) :
    stepSet f s ⊆ stepSet f t := by
  intro x hx
  rcases Finset.mem_union.1 hx with hx | hx
  · exact Finset.mem_union_left _ (h hx)
  · rcases Finset.mem_biUnion.1 hx with ⟨i, hi, hfi⟩
    exact Finset.mem_union_right _ (Finset.mem_biUnion.2 ⟨i, h hi, hfi⟩)

theorem subset_closureSet (f : Nat → List Nat) (b : Nat) (init : Finset Nat) :
    init ⊆ closureSet f b init := by
  induction b with
  | zero => simp [closureSet]
  | succ n ih =>
    calc init ⊆ closureSet f n init := ih
    _ ⊆ stepSet f (closureSet f n init) := subset_stepSet f _
    _ = closureSet f (n + 1) init := by
        simp [closureSet, Function.iterate_succ_apply']

theorem closureSet_succ (f : Nat → List Nat) (b : Nat) (init : Finset Nat) :
    closureSet f (b + 1) init = stepSet f (closureSet f b init) := by
  simp [closureSet, Function.iterate_succ_apply']

/-- Soundness: every member of the closure is reachable from a seed. -/
theorem closureSet_sound (f : Nat → List Nat) (b : Nat) (init : Finset Nat)
    {x : Nat} (hx : x ∈ closureSet f b init) :
    ∃ i ∈ init, Reaches f i x := by
  induction b generalizing x with
  | zero => exact ⟨x, hx, Relation.ReflTransGen.refl⟩
  | succ n ih =>
    rw [closureSet_succ] at hx
    rcases Finset.mem_union.1 hx with hx | hx
    · exact ih hx
    · rcases Finset.mem_biUnion.1 hx with ⟨i, hi, hfi⟩
      rcases ih hi with ⟨s, hs, hr⟩
      exact ⟨s, hs, hr.tail (List.mem_toFinset.1 hfi)⟩

theorem closureSet_bounded (f : Nat → List Nat) (N : Nat)
    (hf : ∀ i j, j ∈ f i → j < N) {init : Finset Nat}
    (hinit : init ⊆ Finset.range N) (b : Nat) :
    closureSet f b init ⊆ Finset.range N := by
  induction b with
  | zero => exact hinit
  | succ n ih =>
    rw [closureSet_succ]
    intro x hx
    rcases Finset.mem_union.1 hx with hx | hx
    · exact ih hx
    · rcases Finset.mem_biUnion.1 hx with ⟨i, _, hfi⟩
      exact Finset.mem_range.2 (hf i x (List.mem_toFinset.1 hfi))

theorem closureSet_stable (f : Nat → List Nat) (init : Finset Nat) {k : Nat}
    (hk : closureSet f (k + 1) init = closureSet f k init) (m : Nat) :
    closureSet f (k + m) init = closureSet f k init := by
  induction m with
  | zero => rfl
  | succ n ih =>
    have : k + (n + 1) = (k + n) + 1 := by omega
    rw [this, closureSet_succ, ih, ← closureSet_succ, hk]

/-- After `N` iterations the closure is a fixed point of `stepSet`, provided
all neighbors and seeds lie below `N`. -/
theorem closureSet_fixed (f : Nat → List Nat) (N : Nat)
    (hf : ∀ i j, j ∈ f i → j < N) {init : Finset Nat}
    (hinit : init ⊆ Finset.range N) :
    stepSet f (closureSet f N init) = closureSet f N init := by
  by_cases hemp : init = ∅
  · subst hemp
    have hstep : stepSet f ∅ = ∅ := by simp [stepSet]
    have hall : ∀ b, closureSet f b (∅ : Finset Nat) = ∅ := by
      intro b
      induction b with
      | zero => rfl
      | succ n ih => rw [closureSet_succ, ih, hstep]
    rw [hall, hstep]
  · have hmono : ∀ k, closureSet f k init ⊆ closureSet f (k + 1) init := by
      intro k
      rw [closureSet_succ]
      exact subset_stepSet f _
    have hexists : ∃ k < N, closureSet f (k + 1) init = closureSet f k init := by
      by_contra hcon
      push_neg at hcon
      have hssub : ∀ k < N, closureSet f k init ⊂ closureSet f (k + 1) init := by
        intro k hkN
        exact lt_of_le_of_ne (hmono k) (fun h => hcon k hkN h.symm)
      have hcard : ∀ k, k ≤ N →
          (closureSet f 0 init).card + k ≤ (closureSet f k init).card := by
        intro k hkN
        induction k with
        | zero => simp
        | succ n ih =>
          have h1 := ih (by omega)
          have h2 := Finset.card_lt_card (hssub n (by omega))
          omega
      have hN1 : 1 ≤ (closureSet f 0 init).card := by
        have : init.Nonempty := Finset.nonempty_iff_ne_empty.2 hemp
        simpa [closureSet] using Finset.card_pos.2 this
      have hub : (closureSet f N init).card ≤ N := by
        have := Finset.card_le_card
          (closureSet_bounded f N hf hinit N)
        simpa using this
      have := hcard N le_rfl
      omega
    rcases hexists with ⟨k, hkN, hfix⟩
    have h1 : closureSet f N init = closureSet f k init := by
      have := closureSet_stable f init hfix (N - k)
      rwa [Nat.add_sub_cancel' (Nat.le_of_lt hkN)] at this
    have h2 : closureSet f (N + 1) init = closureSet f k init := by
      have := closureSet_stable f init hfix (N + 1 - k)
      rwa [Nat.add_sub_cancel' (by omega : k ≤ N + 1)] at this
    rw [← closureSet_succ, h1, h2]

/-- Completeness: every node reachable from a seed is in the `N`-fold
closure. -/
theorem closureSet_complete (f : Nat → List Nat) (N : Nat)
    (hf : ∀ i j, j ∈ f i → j < N) {init : Finset Nat}
    (hinit : init ⊆ Finset.range N) {a x : Nat} (hs : a ∈ init)
    (hr : Reaches f a x) : x ∈ closureSet f N init := by
  induction hr with
  | refl => exact subset_closureSet f N init hs
  | tail _ hstep ih =>
    rw [← closureSet_fixed f N hf hinit]
    exact Finset.mem_union_right _
      (Finset.mem_biUnion.2 ⟨_, ih, List.mem_toFinset.2 hstep⟩)

/-- The worklist closure computes exactly the set of nodes reachable from
the seeds. -/
theorem closureSet_iff (f : Nat → List Nat) (N : Nat)
    (hf : ∀ i j, j ∈ f i → j < N) {init : Finset Nat}
    (hinit : init ⊆ Finset.range N) (x : Nat) :
    x ∈ closureSet f N init ↔ ∃ i ∈ init, Reaches f i x :=
  ⟨closureSet_sound f N init, fun ⟨_, hs, hr⟩ =>
    closureSet_complete f N hf hinit hs hr⟩

/-!
### ND taint pass (`analysis::run_nd_pass`)

The seed set collects every node whose own semantics is nondeterministic;
the worklist then taints every forward successor.  In the Rust code a seed is
inserted into `nd_effects` with its own effect, a node tainted by propagation
with `Deterministic → LocallyNonDet`, `LocallyNonDet → LocallyNonDet`,
`ExternalNonDet → ExternalNonDet`; since a seed's own effect is never
`Deterministic`, both insertions agree with `effectString` below, and
untainted nodes default to `"Deterministic"`.
-/

/-- Whether the node at index `i` is an ND seed: its own semantics is not
deterministic. -/
def isSeed (nodes : List Node) (i : Nat) : Bool :=
  match nodes[i]? with
  | some n => if (get_node_semantics n).nd = .Deterministic then false else true
  | none => false

/-- Seed indices of `run_nd_pass`: nodes whose own semantics is not
deterministic. -/
def ndSeeds (nodes : List Node) : Finset Nat :=
  (Finset.range nodes.length).filter fun i => isSeed nodes i = true

/-- The tainted index set computed by the `run_nd_pass` worklist. -/
def taintedSet (nodes : List Node) (edges : List Edge) : Finset Nat :=
  closureSet (succs nodes edges) nodes.length (ndSeeds nodes)

/-- The ND effect string `run_nd_pass` records for the node at index `i`. -/
def effectString (nodes : List Node) (edges : List Edge) (i : Nat) (n : Node) :
    String :=
  if i ∈ taintedSet nodes edges then
    match (get_node_semantics n).nd with
    | .ExternalNonDet => "ExternalNonDet"
    | _ => "LocallyNonDet"
  else "Deterministic"

/-- The `nd_effects` map of `run_nd_pass`, keyed by node id (association
list in node order; ids are unique in a well-formed IR). -/
def ndEffectsList (ir : HydroIr) : List (String × String) :=
  ir.nodes.enum.map fun p => (p.2.id, effectString ir.nodes ir.edges p.1 p.2)

/-- Lookup in the `nd_effects` map. -/
def lookupNd (ir : HydroIr) (id : String) : Option String :=
  ((ndEffectsList ir).find? fun p => p.1 = id).map Prod.snd

/-!
### CALM pass (`analysis::run_calm_pass`, `check_edge_calm_safe`,
`compute_backward_reachable`)
-/

/-- Whether an edge is CALM-critical: it carries the `"Network"` semantic
tag or its target resolves to a node of kind `Sink`. -/
def isCritical (nodes : List Node) (e : Edge) : Bool :=
  let isNetwork :=
    match e.semantic_tags with
    | some tags => tags.any fun tag => tag = "Network"
    | none => false
  let targetsSink :=
    match nodeIdx nodes e.target with
    | some i =>
      match nodes[i]? with
      | some n => n.node_type = "Sink"
      | none => false
    | none => false
  isNetwork || targetsSink

/-- Embeds `compute_backward_reachable`: the worklist closure of `{target}`
under backward adjacency (contains the target itself). -/
def backwardReachable (nodes : List Node) (edges : List Edge)
    (target : Nat) : Finset Nat :=
  closureSet (preds nodes edges) nodes.length {target}

/-- Embeds the `edge_map` lookup in `check_edge_calm_safe` and
`extract_issues`: a `HashMap` keyed by the resolved `(source, target)` index
pair, populated in edge order, so the last edge of a pair wins. -/
def edge_map_get (nodes : List Node) (edges : List Edge) (p : Nat × Nat) :
    Option Edge :=
  edges.reverse.find? fun e => pairOf nodes e = some p

/-- The per-node monotonicity check of `check_edge_calm_safe`: the node at
index `i` must not be `Never`-monotone. -/
def nodeMonoOk (nodes : List Node) (i : Nat) : Bool :=
  match nodes[i]? with
  | some n =>
    if (get_node_semantics n).monotone = Monotonicity.Never then false
    else true
  | none => true

/-- The per-node outgoing-edge check of `check_edge_calm_safe`: every
forward edge from `i` into the reachable cone (or onto the target) must be
lattice-typed according to the `edge_map` lookup. -/
def pathEdgesOk (nodes : List Node) (edges : List Edge)
    (reachable : Finset Nat) (target_idx i : Nat) : Bool :=
  (forwardAdj nodes edges i).all fun st =>
    if st.1 ∈ reachable ∨ st.1 = target_idx then
      match edge_map_get nodes edges (i, st.1) with
      | some e => is_lattice_type e.label
      | none => true
    else true

/-- Embeds `check_edge_calm_safe`: every node backward-reachable from the
target must be monotone, and every consulted path edge must be
lattice-typed.  An edge whose target does not resolve is considered safe. -/
def check_edge_calm_safe (nodes : List Node) (edges : List Edge)
    (target_edge : Edge) : Bool :=
  match nodeIdx nodes target_edge.target with
  | none => true
  | some target_idx =>
    let reachable := backwardReachable nodes edges target_idx
    decide (∀ i ∈ reachable,
      nodeMonoOk nodes i = true ∧
      pathEdgesOk nodes edges reachable target_idx i = true)

/-- The CALM status string `run_calm_pass` records for an edge: critical
edges are certified, non-critical edges default to `"CalmSafe"`. -/
def calmStatus (nodes : List Node) (edges : List Edge) (e : Edge) : String :=
  if isCritical nodes e then
    if check_edge_calm_safe nodes edges e then "CalmSafe" else "CalmUnsafe"
  else "CalmSafe"

/-- Embeds `run_calm_pass`'s `overall_calm_safe`: the conjunction of the
per-critical-edge certifications. -/
def overallCalmSafe (nodes : List Node) (edges : List Edge) : Bool :=
  (edges.filter fun e => isCritical nodes e).all fun e =>
    check_edge_calm_safe nodes edges e

/-- Embeds `run_analysis`'s `overall_deterministic`: all values of the
`nd_effects` map are `"Deterministic"`. -/
def overallDeterministic (ir : HydroIr) : Bool :=
  (ndEffectsList ir).all fun p => p.2 = "Deterministic"

/-!
### Issue attribution (`analysis::extract_issues`) and analysis products
-/

/-- Embeds `model::Issue`. -/
structure Issue where
  kind : String
  message : String
deriving DecidableEq, Repr

/-- Embeds `model::SourceLocation`. -/
structure SourceLocation where
  file : String
  line : Nat
  function : Option String
deriving DecidableEq, Repr

/-- Embeds `model::NodeAnalysis`. -/
structure NodeAnalysis where
  nd_effect : String
  monotone : Bool
  issues : List Issue
  source_location : Option SourceLocation
deriving DecidableEq, Repr

/-- Embeds `model::EdgeAnalysis`. -/
structure EdgeAnalysis where
  is_lattice : Bool
  calm : String
  issues : List Issue
deriving DecidableEq, Repr

/-- Embeds `model::OverallAnalysis`. -/
structure OverallAnalysis where
  deterministic : Bool
  calm_safe : Bool
deriving DecidableEq, Repr

/-- Embeds `analysis::AnalysisResult` (the two `HashMap`s keyed by id become
association lists in input order; ids are unique in a well-formed IR). -/
structure AnalysisResult where
  node_analyses : List (String × NodeAnalysis)
  edge_analyses : List (String × EdgeAnalysis)
  overall : OverallAnalysis
deriving DecidableEq, Repr

/-- Whether a frame's file path is skipped as framework-internal by
`Node::extract_source_location`. -/
def frameSkipped (file : String) : Bool :=
  strContains file "hydro_lang" || strContains file "dfir_" ||
  strContains file "stageleft" ||
  (file.startsWith "src/" &&
    (strContains file "location/" || strContains file "compile/" ||
     strContains file "live_collections/"))

/-- The user-code scan loop of `extract_source_location`: `some r` embeds an
early `return r` (including the `None` propagated by a missing line number),
`none` means the loop fell through to the first-frame fallback. -/
def srcLocLoop : List Frame → Option (Option SourceLocation)
  | [] => none
  | f :: rest =>
    match f.file with
    | some file =>
      if frameSkipped file then srcLocLoop rest
      else
        some (match f.line with
          | some l => some ⟨file, l, f.function⟩
          | none => none)
    | none => srcLocLoop rest

/-- Embeds `Node::extract_source_location`. -/
def extract_source_location (n : Node) : Option SourceLocation :=
  match n.data with
  | none => none
  | some d =>
    match d.backtrace with
    | none => none
    | some frames =>
      match srcLocLoop frames with
      | some r => r
      | none =>
        match frames.head? with
        | none => none
        | some f =>
          match f.file, f.line with
          | some file, some l => some ⟨file, l, f.function⟩
          | _, _ => none

/-- The `NonDet` issue message of `extract_issues`. -/
def ndMessage (id eff : String) : String :=
  "Node '" ++ id ++ "' is nondeterministic (" ++ eff ++ ")"

/-- Embeds the node-side issue accumulation of `extract_issues`: first the
`NonDet` issue when the propagated effect is nondeterministic, then one
`NonMonotone` issue per CALM-unsafe edge whose backward cone contains this
`Never`-monotone node. -/
def nodeIssues (nodes : List Node) (edges : List Edge) (i : Nat) (n : Node) :
    List Issue :=
  (if effectString nodes edges i n = "Deterministic" then []
   else [⟨"NonDet", ndMessage n.id (effectString nodes edges i n)⟩])
  ++
  edges.filterMap fun e =>
    if calmStatus nodes edges e = "CalmUnsafe" then
      match nodeIdx nodes e.target with
      | some t =>
        if i ∈ backwardReachable nodes edges t ∧
            (get_node_semantics n).monotone = Monotonicity.Never then
          some ⟨"NonMonotone",
            "Node '" ++ n.id ++ "' is non-monotone on CALM-critical path to edge '"
              ++ e.id ++ "'"⟩
        else none
      | none => none
    else none

/-- Whether, while attributing issues for the CALM-unsafe edge with resolved
target `t`, the path edge `pe` is consulted and found non-lattice at the
cone position `(i, succ)`. -/
def nonLatticeHit (nodes : List Node) (edges : List Edge) (t : Nat)
    (pe : Edge) : Bool :=
  decide (∃ i ∈ backwardReachable nodes edges t,
    ∃ st ∈ forwardAdj nodes edges i,
      (st.1 ∈ backwardReachable nodes edges t ∨ st.1 = t) ∧
      edge_map_get nodes edges (i, st.1) = some pe ∧
      is_lattice_type pe.label = false)

/-- Embeds the edge-side issue accumulation of `extract_issues`: one
`NonLattice` issue per CALM-unsafe edge on whose backward cone this edge is
the consulted, non-lattice `edge_map` entry.  (The source iterates the
reachable cone in unspecified `HashSet` order and may push the same issue
once per parallel adjacency entry; the embedding records it once per
CALM-unsafe edge — the claims settled below depend only on which issues
appear, not on their multiplicity.) -/
def edgeIssues (nodes : List Node) (edges : List Edge) (pe : Edge) :
    List Issue :=
  edges.filterMap fun e =>
    if calmStatus nodes edges e = "CalmUnsafe" then
      match nodeIdx nodes e.target with
      | some t =>
        if nonLatticeHit nodes edges t pe then
          some ⟨"NonLattice",
            "Edge '" ++ pe.id ++ "' is non-lattice on CALM-critical path to edge '"
              ++ e.id ++ "'"⟩
        else none
      | none => none
    else none

/-- Embeds `analysis::run_analysis`: per-node and per-edge analyses with the
issues attached by `extract_issues`, and the overall verdict. -/
def run_analysis (ir : HydroIr) : AnalysisResult :=
  { node_analyses :=
      ir.nodes.enum.map fun p =>
        (p.2.id,
         { nd_effect := effectString ir.nodes ir.edges p.1 p.2
           monotone :=
             if (get_node_semantics p.2).monotone = Monotonicity.Never
             then false else true
           issues := nodeIssues ir.nodes ir.edges p.1 p.2
           source_location := extract_source_location p.2 })
    edge_analyses :=
      ir.edges.map fun e =>
        (e.id,
         { is_lattice := is_lattice_type e.label
           calm := calmStatus ir.nodes ir.edges e
           issues := edgeIssues ir.nodes ir.edges e })
    overall :=
      { deterministic := overallDeterministic ir
        calm_safe := overallCalmSafe ir.nodes ir.edges } }

/-- Lookup of a node's analysis by id. -/
def lookupNodeAnalysis (r : AnalysisResult) (id : String) :
    Option NodeAnalysis :=
  (r.node_analyses.find? fun p => p.1 = id).map Prod.snd

/-- Lookup of an edge's analysis by id. -/
def lookupEdgeAnalysis (r : AnalysisResult) (id : String) :
    Option EdgeAnalysis :=
  (r.edge_analyses.find? fun p => p.1 = id).map Prod.snd

/-!
### Basic lemmas about the graph index
-/

theorem nodeIdx_getElem {nodes : List Node} {s : String} {k : Nat}
    (h : nodeIdx nodes s = some k) :
    ∃ n, nodes[k]? = some n ∧ n.id = s := by
  unfold nodeIdx at h
  rcases Option.map_eq_some'.1 h with ⟨p, hp, hfst⟩
  have hmem : p ∈ nodes.enum.reverse := List.mem_of_find?_eq_some hp
  rw [List.mem_reverse] at hmem
  have hget : nodes[p.1]? = some p.2 := List.mk_mem_enum_iff_getElem?.1 hmem
  have hpred := List.find?_some hp
  refine ⟨p.2, ?_, ?_⟩
  · rw [← hfst]; exact hget
  · exact of_decide_eq_true hpred

theorem nodeIdx_lt {nodes : List Node} {s : String} {k : Nat}
    (h : nodeIdx nodes s = some k) : k < nodes.length := by
  rcases nodeIdx_getElem h with ⟨n, hn, _⟩
  rcases List.getElem?_eq_some_iff.1 hn with ⟨hlt, _⟩
  exact hlt

/-- Uniqueness of ids turns positional access into id lookup. -/
theorem nodeIdx_of_getElem {nodes : List Node}
    (hN : (nodes.map Node.id).Nodup) {i : Nat} {n : Node}
    (hi : nodes[i]? = some n) : nodeIdx nodes n.id = some i := by
  have hsome : (nodes.enum.reverse.find? fun p => p.2.id = n.id).isSome := by
    rw [List.find?_isSome]
    refine ⟨(i, n), ?_, by simp⟩
    rw [List.mem_reverse]
    exact List.mk_mem_enum_iff_getElem?.2 hi
  rcases Option.isSome_iff_exists.1 hsome with ⟨q, hq⟩
  have hqmem : q ∈ nodes.enum.reverse := List.mem_of_find?_eq_some hq
  rw [List.mem_reverse] at hqmem
  have hqget : nodes[q.1]? = some q.2 := List.mk_mem_enum_iff_getElem?.1 hqmem
  have hqpred :=
    List.find?_some (p := fun r : Nat × Node => decide (r.2.id = n.id)) hq
  have hqid : q.2.id = n.id := by simpa using hqpred
  have h1 : (nodes.map Node.id)[q.1]? = some n.id := by
    rw [List.getElem?_map, hqget, Option.map_some', hqid]
  have h2 : (nodes.map Node.id)[i]? = some n.id := by
    rw [List.getElem?_map, hi, Option.map_some']
  have hlt1 : q.1 < (nodes.map Node.id).length := by
    rcases List.getElem?_eq_some_iff.1 h1 with ⟨hlt, _⟩
    exact hlt
  have hidx : q.1 = i := List.getElem?_inj hlt1 hN (h1.trans h2.symm)
  unfold nodeIdx
  rw [hq, Option.map_some', hidx]

theorem pairOf_eq_some {nodes : List Node} {e : Edge} {s t : Nat} :
    pairOf nodes e = some (s, t) ↔
      nodeIdx nodes e.source = some s ∧ nodeIdx nodes e.target = some t := by
  unfold pairOf
  rcases hs : nodeIdx nodes e.source with _ | a <;>
    rcases ht : nodeIdx nodes e.target with _ | b <;>
      simp [Prod.ext_iff, eq_comm]

theorem mem_forwardAdj {nodes : List Node} {edges : List Edge} {s t : Nat}
    {eid : String} :
    (t, eid) ∈ forwardAdj nodes edges s ↔
      ∃ e ∈ edges, pairOf nodes e = some (s, t) ∧ e.id = eid := by
  unfold forwardAdj
  rw [List.mem_filterMap]
  constructor
  · rintro ⟨e, he, hfe⟩
    refine ⟨e, he, ?_⟩
    rcases hp : pairOf nodes e with _ | ⟨a, b⟩
    · rw [hp] at hfe; exact absurd hfe (by simp)
    · rw [hp] at hfe
      by_cases hsa : a = s
      · subst hsa
        simp at hfe
        rcases hfe with ⟨h1, rfl, rfl⟩
        exact ⟨by rw [h1], rfl⟩
      · simp [hsa] at hfe
  · rintro ⟨e, he, hp, hid⟩
    exact ⟨e, he, by rw [hp]; simp [hid]⟩

theorem mem_backwardAdj {nodes : List Node} {edges : List Edge} {s t : Nat}
    {eid : String} :
    (s, eid) ∈ backwardAdj nodes edges t ↔
      ∃ e ∈ edges, pairOf nodes e = some (s, t) ∧ e.id = eid := by
  unfold backwardAdj
  rw [List.mem_filterMap]
  constructor
  · rintro ⟨e, he, hfe⟩
    refine ⟨e, he, ?_⟩
    rcases hp : pairOf nodes e with _ | ⟨a, b⟩
    · rw [hp] at hfe; exact absurd hfe (by simp)
    · rw [hp] at hfe
      by_cases htb : b = t
      · subst htb
        simp at hfe
        rcases hfe with ⟨h1, rfl, rfl⟩
        exact ⟨by rw [h1], rfl⟩
      · simp [htb] at hfe
  · rintro ⟨e, he, hp, hid⟩
    exact ⟨e, he, by rw [hp]; simp [hid]⟩

theorem mem_succs {nodes : List Node} {edges : List Edge} {s j : Nat} :
    j ∈ succs nodes edges s ↔
      ∃ e ∈ edges, pairOf nodes e = some (s, j) := by
  unfold succs
  rw [List.mem_map]
  constructor
  · rintro ⟨⟨a, eid⟩, hmem, rfl⟩
    rcases mem_forwardAdj.1 hmem with ⟨e, he, hp, _⟩
    exact ⟨e, he, hp⟩
  · rintro ⟨e, he, hp⟩
    exact ⟨(j, e.id), mem_forwardAdj.2 ⟨e, he, hp, rfl⟩, rfl⟩

theorem mem_preds {nodes : List Node} {edges : List Edge} {t j : Nat} :
    j ∈ preds nodes edges t ↔
      ∃ e ∈ edges, pairOf nodes e = some (j, t) := by
  unfold preds
  rw [List.mem_map]
  constructor
  · rintro ⟨⟨a, eid⟩, hmem, rfl⟩
    rcases mem_backwardAdj.1 hmem with ⟨e, he, hp, _⟩
    exact ⟨e, he, hp⟩
  · rintro ⟨e, he, hp⟩
    exact ⟨(j, e.id), mem_backwardAdj.2 ⟨e, he, hp, rfl⟩, rfl⟩

theorem succs_lt {nodes : List Node} {edges : List Edge} :
    ∀ i j, j ∈ succs nodes edges i → j < nodes.length := by
  intro i j hj
  rcases mem_succs.1 hj with ⟨e, _, hp⟩
  exact nodeIdx_lt (pairOf_eq_some.1 hp).2

theorem preds_lt {nodes : List Node} {edges : List Edge} :
    ∀ i j, j ∈ preds nodes edges i → j < nodes.length := by
  intro i j hj
  rcases mem_preds.1 hj with ⟨e, _, hp⟩
  exact nodeIdx_lt (pairOf_eq_some.1 hp).1

/-- Two list members with the same image under an injective key are equal
when the mapped keys are nodup. -/
theorem eq_of_mem_of_nodup_key {α : Type} {key : α → String} {l : List α}
    (hN : (l.map key).Nodup) {a b : α} (ha : a ∈ l) (hb : b ∈ l)
    (hk : key a = key b) : a = b := by
  induction l with
  | nil => cases ha
  | cons x xs ih =>
    rw [List.map_cons, List.nodup_cons] at hN
    rcases List.mem_cons.1 ha with rfl | ha' <;>
      rcases List.mem_cons.1 hb with rfl | hb'
    · rfl
    · exact absurd (hk.symm ▸ List.mem_map_of_mem key hb') hN.1
    · exact absurd (hk ▸ List.mem_map_of_mem key ha') hN.1
    · exact ih hN.2 ha' hb'

/-!
### Association-list lookup lemmas (the id-keyed `HashMap`s)
-/

/-- Lookup in a map keyed by nodup keys finds the entry of a member. -/
theorem find?_map_key {α β : Type} (key : α → String) (g : α → β)
    {l : List α} (hN : (l.map key).Nodup) {e : α} (he : e ∈ l) :
    ((l.map fun x => (key x, g x)).find? fun q => q.1 = key e)
      = some (key e, g e) := by
  induction l with
  | nil => cases he
  | cons x xs ih =>
    rw [List.map_cons, List.nodup_cons] at hN
    rcases List.mem_cons.1 he with rfl | he'
    · rw [List.map_cons, List.find?_cons_of_pos _ (by simp)]
    · have hne : key x ≠ key e := fun hcon =>
        hN.1 (hcon ▸ List.mem_map_of_mem key he')
      rw [List.map_cons, List.find?_cons_of_neg _ (by simp [hne])]
      exact ih hN.2 he'

/-- Lookup in an enumeration-built map keyed by nodup keys finds the entry
at the given index. -/
theorem find?_map_key_enumFrom {α β : Type} (key : α → String)
    (g : Nat → α → β) :
    ∀ (ns : List α) (k i : Nat) (n : α), (ns.map key).Nodup →
      ns[i]? = some n →
      ((List.enumFrom k ns).map fun p => (key p.2, g p.1 p.2)).find?
          (fun q => q.1 = key n) = some (key n, g (k + i) n) := by
  intro ns
  induction ns with
  | nil => intro k i n _ hi; simp at hi
  | cons m t ih =>
    intro k i n hN hi
    rw [List.map_cons, List.nodup_cons] at hN
    cases i with
    | zero =>
      have hm : m = n := by simpa using hi
      subst hm
      rw [List.enumFrom_cons, List.map_cons,
        List.find?_cons_of_pos _ (by simp)]
      simp
    | succ j =>
      have ht : t[j]? = some n := by simpa using hi
      have hnm : n ∈ t := List.getElem?_mem ht
      have hne : key m ≠ key n := fun hcon =>
        hN.1 (hcon ▸ List.mem_map_of_mem key hnm)
      rw [List.enumFrom_cons, List.map_cons,
        List.find?_cons_of_neg _ (by simp [hne])]
      have harith : k + (j + 1) = (k + 1) + j := by omega
      rw [harith]
      exact ih (k + 1) j n hN.2 ht

/-- The `nd_effects` lookup for the node at index `i`. -/
theorem lookupNd_eq {ir : HydroIr} (hN : (ir.nodes.map Node.id).Nodup)
    {i : Nat} {n : Node} (hi : ir.nodes[i]? = some n) :
    lookupNd ir n.id = some (effectString ir.nodes ir.edges i n) := by
  unfold lookupNd ndEffectsList
  rw [List.enum_eq_enumFrom]
  rw [find?_map_key_enumFrom Node.id
    (fun k m => effectString ir.nodes ir.edges k m) ir.nodes 0 i n hN hi]
  simp

/-- The node-analysis lookup for the node at index `i`. -/
theorem lookupNodeAnalysis_eq {ir : HydroIr}
    (hN : (ir.nodes.map Node.id).Nodup) {i : Nat} {n : Node}
    (hi : ir.nodes[i]? = some n) :
    lookupNodeAnalysis (run_analysis ir) n.id = some
      { nd_effect := effectString ir.nodes ir.edges i n
        monotone :=
          if (get_node_semantics n).monotone = Monotonicity.Never
          then false else true
        issues := nodeIssues ir.nodes ir.edges i n
        source_location := extract_source_location n } := by
  unfold lookupNodeAnalysis run_analysis
  simp only
  rw [List.enum_eq_enumFrom]
  rw [find?_map_key_enumFrom Node.id
    (fun k m =>
      ({ nd_effect := effectString ir.nodes ir.edges k m
         monotone :=
           if (get_node_semantics m).monotone = Monotonicity.Never
           then false else true
         issues := nodeIssues ir.nodes ir.edges k m
         source_location := extract_source_location m } : NodeAnalysis))
    ir.nodes 0 i n hN hi]
  simp

/-- The edge-analysis lookup for a member edge. -/
theorem lookupEdgeAnalysis_eq {ir : HydroIr}
    (hE : (ir.edges.map Edge.id).Nodup) {e : Edge} (he : e ∈ ir.edges) :
    lookupEdgeAnalysis (run_analysis ir) e.id = some
      { is_lattice := is_lattice_type e.label
        calm := calmStatus ir.nodes ir.edges e
        issues := edgeIssues ir.nodes ir.edges e } := by
  unfold lookupEdgeAnalysis run_analysis
  simp only
  rw [find?_map_key Edge.id
    (fun x =>
      ({ is_lattice := is_lattice_type x.label
         calm := calmStatus ir.nodes ir.edges x
         issues := edgeIssues ir.nodes ir.edges x } : EdgeAnalysis))
    hE he]
  simp

/-!
### Lemmas about the CALM pass components
-/

theorem edge_map_get_spec {nodes : List Node} {edges : List Edge}
    {p : Nat × Nat} {f : Edge} (h : edge_map_get nodes edges p = some f) :
    f ∈ edges ∧ pairOf nodes f = some p := by
  unfold edge_map_get at h
  have hmem : f ∈ edges.reverse := List.mem_of_find?_eq_some h
  have hpred :=
    List.find?_some (p := fun e => decide (pairOf nodes e = some p)) h
  exact ⟨List.mem_reverse.1 hmem, of_decide_eq_true hpred⟩

theorem edge_map_get_isSome {nodes : List Node} {edges : List Edge}
    {p : Nat × Nat} {f : Edge} (hf : f ∈ edges)
    (hp : pairOf nodes f = some p) :
    ∃ g, edge_map_get nodes edges p = some g := by
  have hsome : (edges.reverse.find? fun e =>
      pairOf nodes e = some p).isSome := by
    rw [List.find?_isSome]
    exact ⟨f, List.mem_reverse.2 hf, by simp [hp]⟩
  exact Option.isSome_iff_exists.1 hsome

theorem ndSeeds_subset_range (nodes : List Node) :
    ndSeeds nodes ⊆ Finset.range nodes.length :=
  Finset.filter_subset _ _

theorem mem_ndSeeds {nodes : List Node} {i : Nat} {n : Node}
    (hi : nodes[i]? = some n) :
    i ∈ ndSeeds nodes ↔ (get_node_semantics n).nd ≠ .Deterministic := by
  unfold ndSeeds isSeed
  rcases List.getElem?_eq_some_iff.1 hi with ⟨hlt, _⟩
  rw [Finset.mem_filter, Finset.mem_range]
  rw [hi]
  by_cases hdet : (get_node_semantics n).nd = .Deterministic <;>
    simp [hdet, hlt]

/-- The tainted set of `run_nd_pass` is exactly the set of nodes
forward-reachable from a seed. -/
theorem mem_taintedSet {nodes : List Node} {edges : List Edge} {x : Nat} :
    x ∈ taintedSet nodes edges ↔
      ∃ s ∈ ndSeeds nodes, Reaches (succs nodes edges) s x := by
  unfold taintedSet
  exact closureSet_iff (succs nodes edges) nodes.length succs_lt
    (ndSeeds_subset_range nodes) x

/-- The target belongs to its own backward-reachable set. -/
theorem target_mem_backwardReachable (nodes : List Node) (edges : List Edge)
    (t : Nat) : t ∈ backwardReachable nodes edges t :=
  subset_closureSet _ _ _ (Finset.mem_singleton_self t)

/-- Characterisation of a successful CALM certification. -/
theorem check_eq_true_iff {nodes : List Node} {edges : List Edge} {e : Edge}
    {t : Nat} (ht : nodeIdx nodes e.target = some t) :
    check_edge_calm_safe nodes edges e = true ↔
      ∀ i ∈ backwardReachable nodes edges t,
        nodeMonoOk nodes i = true ∧
        pathEdgesOk nodes edges (backwardReachable nodes edges t) t i
          = true := by
  unfold check_edge_calm_safe
  rw [ht]
  simp

/-- `calmStatus` returns `"CalmSafe"` on a critical edge exactly when the
certification succeeds. -/
theorem calmStatus_critical {nodes : List Node} {edges : List Edge}
    {e : Edge} (hcrit : isCritical nodes e = true) :
    calmStatus nodes edges e =
      (if check_edge_calm_safe nodes edges e then "CalmSafe"
       else "CalmUnsafe") := by
  unfold calmStatus
  rw [hcrit]
  simp

theorem calmStatus_unsafe_elim {nodes : List Node} {edges : List Edge}
    {e : Edge} (h : calmStatus nodes edges e = "CalmUnsafe") :
    isCritical nodes e = true ∧
      check_edge_calm_safe nodes edges e = false := by
  unfold calmStatus at h
  by_cases hcrit : isCritical nodes e = true
  · rw [if_pos hcrit] at h
    refine ⟨hcrit, ?_⟩
    by_cases hchk : check_edge_calm_safe nodes edges e = true
    · rw [if_pos hchk] at h
      exact absurd h (by decide)
    · simpa using hchk
  · rw [if_neg hcrit] at h
    exact absurd h (by decide)

/-!
### Concrete inputs used by witnesses and counterexamples
-/

/-- A label-free node of the given kind. -/
def wNode (id ty : String) : Node := ⟨id, ty, id, none, none, none⟩

/-- An edge with the given semantic tags and type label. -/
def wEdge (id s t : String) (tags : Option (List String))
    (lbl : Option String) : Edge := ⟨id, s, t, none, tags, lbl⟩

/-- Spec scenario 2: `Source → NonDeterministic → Transform → Sink`. -/
def irTaint : HydroIr :=
  ⟨[wNode "0" "Source", wNode "1" "NonDeterministic",
    wNode "2" "Transform", wNode "3" "Sink"],
   [wEdge "e0" "0" "1" (some ["Local"]) none,
    wEdge "e1" "1" "2" (some ["Local"]) none,
    wEdge "e2" "2" "3" (some ["Local"]) none]⟩

/-- Spec scenario 3: a lattice-typed `Network` edge. -/
def irNet : HydroIr :=
  ⟨[wNode "0" "Source", wNode "1" "Transform"],
   [wEdge "e0" "0" "1" (some ["Network"]) (some "SetUnion<i32>")]⟩

/-- The `Network` edge of `irNet`. -/
def eNet : Edge := wEdge "e0" "0" "1" (some ["Network"]) (some "SetUnion<i32>")

/-- Spec scenario 4: a `Network` edge with no type label. -/
def irNoLat : HydroIr :=
  ⟨[wNode "0" "Source", wNode "1" "Transform"],
   [wEdge "e0" "0" "1" (some ["Network"]) none]⟩

/-- The unlabelled `Network` edge of `irNoLat`. -/
def eNoLat : Edge := wEdge "e0" "0" "1" (some ["Network"]) none

/-- Two parallel edges from a `Source` to a `Sink`: `e1` earlier and
unlabelled, `e2` later and lattice-typed. -/
def nodesPar : List Node := [wNode "a" "Source", wNode "b" "Sink"]

/-- The edges of the parallel-edge input. -/
def edgesPar : List Edge :=
  [wEdge "e1" "a" "b" none none,
   wEdge "e2" "a" "b" none (some "SetUnion<i32>")]

/-- The earlier, unlabelled parallel edge. -/
def e1Par : Edge := wEdge "e1" "a" "b" none none

/-- The parallel-edge input as an IR. -/
def irPar : HydroIr := ⟨nodesPar, edgesPar⟩

/-- An IR with a `Network` edge whose source id resolves to no node and
whose target is a `NonDeterministic` node. -/
def irMissSrc : HydroIr :=
  ⟨[wNode "t" "NonDeterministic"],
   [wEdge "e" "missing" "t" (some ["Network"]) none]⟩

/-- An IR with an edge both of whose endpoints are missing. -/
def irMissBoth : HydroIr :=
  ⟨[wNode "0" "Source"], [wEdge "e" "x" "y" (some ["Network"]) none]⟩

/-- A cyclic IR with a self-loop, used to witness totality. -/
def irCyc : HydroIr :=
  ⟨[⟨"0", "Transform", "0", none, some "map", none⟩,
    wNode "1" "NonDeterministic"],
   [wEdge "c0" "0" "1" (some ["Local"]) none,
    wEdge "c1" "1" "0" (some ["Local"]) none,
    wEdge "c2" "1" "1" (some ["Local"]) none]⟩

/-!
### Claim C1 — CALM-safe necessity
-/

/-- C1 (amended form).  For every critical edge whose computed CALM status
is `CalmSafe`: every node in the backward-reachable set of the edge's
target is not `Never`-monotone, and every edge with both endpoints in that
set that is the edge consulted through the `(source, target)` edge map
(i.e. the last input edge between that ordered pair) has a lattice type
label. -/
theorem calm_safe_necessity_amended (ir : HydroIr) (e : Edge)
    (he : e ∈ ir.edges) (hcrit : isCritical ir.nodes e = true)
    (hsafe : calmStatus ir.nodes ir.edges e = "CalmSafe")
    (t : Nat) (ht : nodeIdx ir.nodes e.target = some t) :
    (∀ i ∈ backwardReachable ir.nodes ir.edges t, ∀ n,
        ir.nodes[i]? = some n →
        (get_node_semantics n).monotone ≠ Monotonicity.Never)
    ∧ (∀ f ∈ ir.edges, ∀ a b, pairOf ir.nodes f = some (a, b) →
        a ∈ backwardReachable ir.nodes ir.edges t →
        b ∈ backwardReachable ir.nodes ir.edges t →
        edge_map_get ir.nodes ir.edges (a, b) = some f →
        is_lattice_type f.label = true) := by
  have hchk : check_edge_calm_safe ir.nodes ir.edges e = true := by
    rcases hc : check_edge_calm_safe ir.nodes ir.edges e
    · rw [calmStatus_critical hcrit, hc] at hsafe
      simp at hsafe
    · rfl
  have H := (check_eq_true_iff ht).1 hchk
  constructor
  · intro i hi n hn
    have h1 := (H i hi).1
    unfold nodeMonoOk at h1
    rw [hn] at h1
    intro hcon
    simp [hcon] at h1
  · intro f hf a b hp ha hb hmap
    have h2 := (H a ha).2
    unfold pathEdgesOk at h2
    rw [List.all_eq_true] at h2
    have hmem : ((b, f.id) : Nat × String) ∈ forwardAdj ir.nodes ir.edges a :=
      mem_forwardAdj.2 ⟨f, hf, hp, rfl⟩
    have h3 := h2 (b, f.id) hmem
    simp only at h3
    rw [if_pos (Or.inl hb)] at h3
    rw [hmap] at h3
    exact h3

/-- Witness for C1 at the lattice-typed network edge of spec scenario 3. -/
theorem calm_safe_necessity_amended_witness :
    (∀ i ∈ backwardReachable irNet.nodes irNet.edges 1, ∀ n,
        irNet.nodes[i]? = some n →
        (get_node_semantics n).monotone ≠ Monotonicity.Never)
    ∧ (∀ f ∈ irNet.edges, ∀ a b, pairOf irNet.nodes f = some (a, b) →
        a ∈ backwardReachable irNet.nodes irNet.edges 1 →
        b ∈ backwardReachable irNet.nodes irNet.edges 1 →
        edge_map_get irNet.nodes irNet.edges (a, b) = some f →
        is_lattice_type f.label = true) :=
  calm_safe_necessity_amended irNet eNet (by decide) (by decide) (by decide)
    1 (by decide)

/-- C1 as literally stated is false: in `irPar` both parallel edges are
critical and marked `CalmSafe`, both endpoints of the earlier edge `e1` lie
in the backward-reachable set of its target, yet `e1` has no lattice type
label — the certification only consults the later parallel edge `e2`. -/
theorem calm_safe_necessity_claim_false :
    (nodesPar.map Node.id).Nodup ∧ (edgesPar.map Edge.id).Nodup ∧
    e1Par ∈ edgesPar ∧
    isCritical nodesPar e1Par = true ∧
    calmStatus nodesPar edgesPar e1Par = "CalmSafe" ∧
    nodeIdx nodesPar e1Par.target = some 1 ∧
    pairOf nodesPar e1Par = some (0, 1) ∧
    0 ∈ backwardReachable nodesPar edgesPar 1 ∧
    1 ∈ backwardReachable nodesPar edgesPar 1 ∧
    is_lattice_type e1Par.label = false := by
  decide

/-!
### Claims C2 and C5 — ND taint propagation
-/

theorem effectString_det_iff {nodes : List Node} {edges : List Edge}
    {i : Nat} {n : Node} :
    effectString nodes edges i n = "Deterministic" ↔
      i ∉ taintedSet nodes edges := by
  unfold effectString
  by_cases hmem : i ∈ taintedSet nodes edges
  · rw [if_pos hmem]
    rcases hnd : (get_node_semantics n).nd <;> simp [hnd, hmem]
  · rw [if_neg hmem]
    simp [hmem]

/-- C2.  After the ND pass, a node forward-reachable from some seed (a node
whose own semantics is nondeterministic) has a recorded nd effect different
from `"Deterministic"`, and a node is recorded `"Deterministic"` exactly
when it is not forward-reachable from any seed. -/
theorem nd_transitivity (ir : HydroIr)
    (hN : (ir.nodes.map Node.id).Nodup) (i : Nat) (n : Node)
    (hi : ir.nodes[i]? = some n) :
    ((∃ s ∈ ndSeeds ir.nodes, Reaches (succs ir.nodes ir.edges) s i) →
       ∃ eff, lookupNd ir n.id = some eff ∧ eff ≠ "Deterministic")
    ∧ (lookupNd ir n.id = some "Deterministic" ↔
       ¬ ∃ s ∈ ndSeeds ir.nodes, Reaches (succs ir.nodes ir.edges) s i) := by
  have hlk := lookupNd_eq hN hi
  constructor
  · intro hreach
    refine ⟨effectString ir.nodes ir.edges i n, hlk, ?_⟩
    have hmem : i ∈ taintedSet ir.nodes ir.edges := mem_taintedSet.2 hreach
    unfold effectString
    rw [if_pos hmem]
    rcases hnd : (get_node_semantics n).nd <;> simp [hnd]
  · rw [hlk]
    constructor
    · intro hval hre
      have heq : effectString ir.nodes ir.edges i n = "Deterministic" :=
        Option.some.inj hval
      exact (effectString_det_iff.1 heq) (mem_taintedSet.2 hre)
    · intro h
      rw [effectString_det_iff.2 (fun hm => h (mem_taintedSet.1 hm))]

/-- Witness for C2 at spec scenario 2: node `2` is reachable from the seed
`1` and tainted; node `0` is unreachable from every seed and recorded
deterministic. -/
theorem nd_transitivity_witness :
    (∃ eff, lookupNd irTaint "2" = some eff ∧ eff ≠ "Deterministic") ∧
    ¬ ∃ s ∈ ndSeeds irTaint.nodes,
        Reaches (succs irTaint.nodes irTaint.edges) s 0 := by
  constructor
  · exact (nd_transitivity irTaint (by decide) 2 (wNode "2" "Transform")
      (by decide)).1
      ⟨1, by decide, Relation.ReflTransGen.single (by decide)⟩
  · exact (nd_transitivity irTaint (by decide) 0 (wNode "0" "Source")
      (by decide)).2.mp (by decide)

/-- C5.  A node whose own semantics is deterministic but which is
forward-reachable from a seed is recorded `"LocallyNonDet"`, and the
recorded effect `"ExternalNonDet"` occurs only on nodes whose own semantics
is `ExternalNonDet`. -/
theorem propagated_taint_locally_nondet (ir : HydroIr)
    (hN : (ir.nodes.map Node.id).Nodup) (i : Nat) (n : Node)
    (hi : ir.nodes[i]? = some n) :
    ((get_node_semantics n).nd = NdEffect.Deterministic →
       (∃ s ∈ ndSeeds ir.nodes, Reaches (succs ir.nodes ir.edges) s i) →
       lookupNd ir n.id = some "LocallyNonDet")
    ∧ (lookupNd ir n.id = some "ExternalNonDet" →
       (get_node_semantics n).nd = NdEffect.ExternalNonDet) := by
  have hlk := lookupNd_eq hN hi
  constructor
  · intro hdet hreach
    rw [hlk]
    have hmem : i ∈ taintedSet ir.nodes ir.edges := mem_taintedSet.2 hreach
    unfold effectString
    rw [if_pos hmem, hdet]
  · intro hval
    rw [hlk] at hval
    have heq : effectString ir.nodes ir.edges i n = "ExternalNonDet" :=
      Option.some.inj hval
    unfold effectString at heq
    by_cases hmem : i ∈ taintedSet ir.nodes ir.edges
    · rw [if_pos hmem] at heq
      rcases hnd : (get_node_semantics n).nd
      · simp [hnd] at heq
      · simp [hnd] at heq
      · rfl
    · rw [if_neg hmem] at heq
      simp at heq

/-- Witness for C5 at spec scenario 2: node `2` owns deterministic
semantics, is tainted by propagation, and is recorded `"LocallyNonDet"`. -/
theorem propagated_taint_locally_nondet_witness :
    lookupNd irTaint "2" = some "LocallyNonDet" :=
  (propagated_taint_locally_nondet irTaint (by decide) 2
    (wNode "2" "Transform") (by decide)).1 (by decide)
    ⟨1, by decide, Relation.ReflTransGen.single (by decide)⟩

/-!
### Claim C3 — CALM-unsafe witness
-/

/-- C3.  Every critical edge whose computed CALM status is `CalmUnsafe` has
a resolving target whose backward-reachable set contains a witness: a
`Never`-monotone node, or an edge between two nodes of the set with a
non-lattice type label. -/
theorem calm_unsafe_has_witness (ir : HydroIr) (e : Edge)
    (he : e ∈ ir.edges)
    (hcuns : calmStatus ir.nodes ir.edges e = "CalmUnsafe") :
    ∃ t, nodeIdx ir.nodes e.target = some t ∧
      ((∃ i ∈ backwardReachable ir.nodes ir.edges t, ∃ n,
          ir.nodes[i]? = some n ∧
          (get_node_semantics n).monotone = Monotonicity.Never) ∨
       (∃ f ∈ ir.edges, ∃ a b, pairOf ir.nodes f = some (a, b) ∧
          a ∈ backwardReachable ir.nodes ir.edges t ∧
          b ∈ backwardReachable ir.nodes ir.edges t ∧
          is_lattice_type f.label = false)) := by
  rcases calmStatus_unsafe_elim hcuns with ⟨hcrit, hchk⟩
  rcases ht : nodeIdx ir.nodes e.target with _ | t
  · unfold check_edge_calm_safe at hchk
    rw [ht] at hchk
    simp at hchk
  · refine ⟨t, rfl, ?_⟩
    have hnot : ¬ (∀ i ∈ backwardReachable ir.nodes ir.edges t,
        nodeMonoOk ir.nodes i = true ∧
        pathEdgesOk ir.nodes ir.edges (backwardReachable ir.nodes ir.edges t)
          t i = true) := by
      intro hall
      rw [(check_eq_true_iff ht).2 hall] at hchk
      cases hchk
    push_neg at hnot
    rcases hnot with ⟨i, hi, hcond⟩
    by_cases hA : nodeMonoOk ir.nodes i = true
    · right
      have hB := hcond hA
      have hfalse : pathEdgesOk ir.nodes ir.edges
          (backwardReachable ir.nodes ir.edges t) t i = false := by
        rcases hpo : pathEdgesOk ir.nodes ir.edges
            (backwardReachable ir.nodes ir.edges t) t i
        · rfl
        · exact absurd hpo hB
      unfold pathEdgesOk at hfalse
      rw [List.all_eq_false] at hfalse
      rcases hfalse with ⟨st, hstmem, hstfalse⟩
      by_cases hcond2 : st.1 ∈ backwardReachable ir.nodes ir.edges t ∨
          st.1 = t
      · rw [if_pos hcond2] at hstfalse
        rcases hlm : edge_map_get ir.nodes ir.edges (i, st.1) with _ | f
        · rw [hlm] at hstfalse
          simp at hstfalse
        · rw [hlm] at hstfalse
          rcases edge_map_get_spec hlm with ⟨hfmem, hfpair⟩
          refine ⟨f, hfmem, i, st.1, hfpair, hi, ?_, ?_⟩
          · rcases hcond2 with h | h
            · exact h
            · rw [h]
              exact target_mem_backwardReachable ir.nodes ir.edges t
          · simpa using hstfalse
      · rw [if_neg hcond2] at hstfalse
        simp at hstfalse
    · left
      have hfalse : nodeMonoOk ir.nodes i = false := by
        rcases hmo : nodeMonoOk ir.nodes i
        · rfl
        · exact absurd hmo hA
      unfold nodeMonoOk at hfalse
      rcases hn : ir.nodes[i]? with _ | n
      · rw [hn] at hfalse
        simp at hfalse
      · rw [hn] at hfalse
        refine ⟨i, hi, n, hn, ?_⟩
        by_cases hmon : (get_node_semantics n).monotone = Monotonicity.Never
        · exact hmon
        · simp [hmon] at hfalse

/-- Witness for C3 at spec scenario 4: the unlabelled network edge of
`irNoLat` is `CalmUnsafe` and its cone contains the non-lattice edge. -/
theorem calm_unsafe_has_witness_inst :
    ∃ t, nodeIdx irNoLat.nodes eNoLat.target = some t ∧
      ((∃ i ∈ backwardReachable irNoLat.nodes irNoLat.edges t, ∃ n,
          irNoLat.nodes[i]? = some n ∧
          (get_node_semantics n).monotone = Monotonicity.Never) ∨
       (∃ f ∈ irNoLat.edges, ∃ a b, pairOf irNoLat.nodes f = some (a, b) ∧
          a ∈ backwardReachable irNoLat.nodes irNoLat.edges t ∧
          b ∈ backwardReachable irNoLat.nodes irNoLat.edges t ∧
          is_lattice_type f.label = false)) :=
  calm_unsafe_has_witness irNoLat eNoLat (by decide) (by decide)

/-!
### Claim C4 — overall consistency
-/

/-- C4.  `overall.calm_safe` holds exactly when every critical edge's
recorded CALM status is `"CalmSafe"`, and `overall.deterministic` holds
exactly when every node's recorded nd effect is `"Deterministic"`. -/
theorem overall_consistency (ir : HydroIr)
    (hN : (ir.nodes.map Node.id).Nodup)
    (hE : (ir.edges.map Edge.id).Nodup) :
    ((run_analysis ir).overall.calm_safe = true ↔
      ∀ e ∈ ir.edges, isCritical ir.nodes e = true →
        ∃ a, lookupEdgeAnalysis (run_analysis ir) e.id = some a ∧
          a.calm = "CalmSafe")
    ∧ ((run_analysis ir).overall.deterministic = true ↔
      ∀ n ∈ ir.nodes,
        ∃ a, lookupNodeAnalysis (run_analysis ir) n.id = some a ∧
          a.nd_effect = "Deterministic") := by
  constructor
  · constructor
    · intro hall e he hcrit
      have h1 : overallCalmSafe ir.nodes ir.edges = true := hall
      unfold overallCalmSafe at h1
      rw [List.all_eq_true] at h1
      have hchk := h1 e (List.mem_filter.2 ⟨he, hcrit⟩)
      refine ⟨_, lookupEdgeAnalysis_eq hE he, ?_⟩
      show calmStatus ir.nodes ir.edges e = "CalmSafe"
      rw [calmStatus_critical hcrit]
      simp only at hchk
      rw [hchk]
      simp
    · intro hexp
      show overallCalmSafe ir.nodes ir.edges = true
      unfold overallCalmSafe
      rw [List.all_eq_true]
      intro e hef
      rcases List.mem_filter.1 hef with ⟨he, hcrit⟩
      rcases hexp e he hcrit with ⟨a, hla, hcalm⟩
      rw [lookupEdgeAnalysis_eq hE he] at hla
      have ha := Option.some.inj hla
      rw [← ha] at hcalm
      have hcse : calmStatus ir.nodes ir.edges e = "CalmSafe" := hcalm
      rcases hc : check_edge_calm_safe ir.nodes ir.edges e
      · rw [calmStatus_critical hcrit, hc] at hcse
        simp at hcse
      · rfl
  · constructor
    · intro hall n hn
      rcases List.mem_iff_getElem?.1 hn with ⟨i, hi⟩
      refine ⟨_, lookupNodeAnalysis_eq hN hi, ?_⟩
      show effectString ir.nodes ir.edges i n = "Deterministic"
      have h1 : overallDeterministic ir = true := hall
      unfold overallDeterministic at h1
      rw [List.all_eq_true] at h1
      have hp := h1 (n.id, effectString ir.nodes ir.edges i n) (by
        unfold ndEffectsList
        exact List.mem_map_of_mem _ (List.mk_mem_enum_iff_getElem?.2 hi))
      simpa using hp
    · intro hexp
      show overallDeterministic ir = true
      unfold overallDeterministic
      rw [List.all_eq_true]
      rintro ⟨id0, eff⟩ hmem
      unfold ndEffectsList at hmem
      rcases List.mem_map.1 hmem with ⟨q, hqmem, heq⟩
      have hget : ir.nodes[q.1]? = some q.2 :=
        List.mk_mem_enum_iff_getElem?.1 hqmem
      have hnmem : q.2 ∈ ir.nodes := List.getElem?_mem hget
      rcases hexp q.2 hnmem with ⟨a, hla, hdet⟩
      rw [lookupNodeAnalysis_eq hN hget] at hla
      have ha := Option.some.inj hla
      rw [← ha] at hdet
      have heff : effectString ir.nodes ir.edges q.1 q.2 = "Deterministic" :=
        hdet
      have heff2 : eff = effectString ir.nodes ir.edges q.1 q.2 :=
        (congrArg Prod.snd heq).symm
      simp [heff2, heff]

/-- Witness for C4 at the CALM-safe network IR of spec scenario 3. -/
theorem overall_consistency_witness :
    ((run_analysis irNet).overall.calm_safe = true ↔
      ∀ e ∈ irNet.edges, isCritical irNet.nodes e = true →
        ∃ a, lookupEdgeAnalysis (run_analysis irNet) e.id = some a ∧
          a.calm = "CalmSafe")
    ∧ ((run_analysis irNet).overall.deterministic = true ↔
      ∀ n ∈ irNet.nodes,
        ∃ a, lookupNodeAnalysis (run_analysis irNet) n.id = some a ∧
          a.nd_effect = "Deterministic") :=
  overall_consistency irNet (by decide) (by decide)

/-!
### Claim C6 — manual vs network batch
-/

/-- A node labelled `batch` with no backtrace: the "manual batch" case. -/
def batchNodeManual : Node := ⟨"n1", "Transform", "n1", none, some "batch", none⟩

/-- A node labelled `batch` whose backtrace contains a framework
`networking.rs` frame: the "network batch" case. -/
def batchNodeNet : Node :=
  ⟨"n2", "Transform", "n2", none, some "batch",
   some ⟨none, none, some [⟨some "hydro/src/networking.rs", some 10, none⟩]⟩⟩

/-- C6 evaluated on the code.  A `batch` node with a network backtrace is
classified deterministic and always-monotone, as the claim states; but the
label-table entry for `"batch"` is *also* deterministic and always-monotone,
so a manual `batch` node is classified deterministic and does **not** seed
the ND pass — contradicting the claim (and the code's own comment "Manual
batch is semantic nondeterminism"). -/
theorem manual_batch_deterministic_eval :
    get_node_semantics batchNodeNet =
      ⟨NdEffect.Deterministic, Monotonicity.Always⟩ ∧
    get_semantics_by_label "batch" =
      some ⟨NdEffect.Deterministic, Monotonicity.Always⟩ ∧
    get_node_semantics batchNodeManual =
      ⟨NdEffect.Deterministic, Monotonicity.Always⟩ ∧
    ndSeeds [batchNodeManual] = ∅ := by
  decide

/-!
### Claim C7 — NonDet issue attribution
-/

/-- C7.  A node with a nondeterministic recorded effect carries exactly the
`NonDet` issue message `"Node '<id>' is nondeterministic (<effect>)"`, and a
node recorded `"Deterministic"` carries no `NonDet` issue. -/
theorem nondet_issue_exact (ir : HydroIr)
    (hN : (ir.nodes.map Node.id).Nodup) (i : Nat) (n : Node)
    (hi : ir.nodes[i]? = some n) :
    ∃ a, lookupNodeAnalysis (run_analysis ir) n.id = some a ∧
      (a.nd_effect ≠ "Deterministic" →
        (⟨"NonDet", ndMessage n.id a.nd_effect⟩ : Issue) ∈ a.issues) ∧
      (a.nd_effect = "Deterministic" →
        ∀ iss ∈ a.issues, iss.kind ≠ "NonDet") := by
  refine ⟨_, lookupNodeAnalysis_eq hN hi, ?_, ?_⟩
  · intro hne
    show (⟨"NonDet", ndMessage n.id (effectString ir.nodes ir.edges i n)⟩ :
      Issue) ∈ nodeIssues ir.nodes ir.edges i n
    unfold nodeIssues
    rw [if_neg hne]
    exact List.mem_append_left _ (by simp)
  · intro hdet iss hmem
    have hdet' : effectString ir.nodes ir.edges i n = "Deterministic" := hdet
    show iss.kind ≠ "NonDet"
    have hmem' : iss ∈ nodeIssues ir.nodes ir.edges i n := hmem
    unfold nodeIssues at hmem'
    rw [if_pos hdet', List.nil_append] at hmem'
    rcases List.mem_filterMap.1 hmem' with ⟨e0, he0, hfe⟩
    split at hfe
    · split at hfe
      · split at hfe
        · have hiss := (Option.some.inj hfe).symm
          rw [hiss]
          simp
        · cases hfe
      · cases hfe
    · cases hfe

/-- Witness for C7 at spec scenario 2: the tainted node `2` carries the
exact `NonDet` message; the deterministic node `0` carries none. -/
theorem nondet_issue_exact_witness :
    (∃ a, lookupNodeAnalysis (run_analysis irTaint) "2" = some a ∧
      (a.nd_effect ≠ "Deterministic" →
        (⟨"NonDet", ndMessage "2" a.nd_effect⟩ : Issue) ∈ a.issues) ∧
      (a.nd_effect = "Deterministic" →
        ∀ iss ∈ a.issues, iss.kind ≠ "NonDet")) ∧
    (∃ a, lookupNodeAnalysis (run_analysis irTaint) "0" = some a ∧
      (a.nd_effect ≠ "Deterministic" →
        (⟨"NonDet", ndMessage "0" a.nd_effect⟩ : Issue) ∈ a.issues) ∧
      (a.nd_effect = "Deterministic" →
        ∀ iss ∈ a.issues, iss.kind ≠ "NonDet")) :=
  ⟨nondet_issue_exact irTaint (by decide) 2 (wNode "2" "Transform")
     (by decide),
   nondet_issue_exact irTaint (by decide) 0 (wNode "0" "Source")
     (by decide)⟩

/-!
### Claim C8 — edges with missing endpoints
-/

/-- C8 (amended form).  An edge with a missing endpoint contributes no
forward or backward adjacency entry, and its analysis record has
`is_lattice` computed from its own label and an empty issue list; its CALM
status defaults to `"CalmSafe"` when the *target* is missing (an edge whose
source alone is missing is still certified against its target's backward
cone and may be `CalmUnsafe`). -/
theorem missing_endpoint_edge_amended (ir : HydroIr)
    (hE : (ir.edges.map Edge.id).Nodup) (e : Edge) (he : e ∈ ir.edges)
    (hmiss : nodeIdx ir.nodes e.source = none ∨
      nodeIdx ir.nodes e.target = none) :
    (∀ i st, st ∈ forwardAdj ir.nodes ir.edges i → st.2 ≠ e.id) ∧
    (∀ i st, st ∈ backwardAdj ir.nodes ir.edges i → st.2 ≠ e.id) ∧
    ∃ a, lookupEdgeAnalysis (run_analysis ir) e.id = some a ∧
      a.is_lattice = is_lattice_type e.label ∧
      a.issues = [] ∧
      (nodeIdx ir.nodes e.target = none → a.calm = "CalmSafe") := by
  have hpnone : pairOf ir.nodes e = none := by
    rcases hp : pairOf ir.nodes e with _ | q
    · rfl
    · rcases q with ⟨a, b⟩
      rcases pairOf_eq_some.1 hp with ⟨hs, ht⟩
      rcases hmiss with h | h
      · rw [h] at hs; cases hs
      · rw [h] at ht; cases ht
  have hhitall : ∀ t, nonLatticeHit ir.nodes ir.edges t e = false := by
    intro t
    unfold nonLatticeHit
    rw [decide_eq_false_iff_not]
    rintro ⟨i0, hi0, st, hst, hcond, hlm, hlat⟩
    rcases edge_map_get_spec hlm with ⟨hfmem, hfpair⟩
    rw [hpnone] at hfpair
    cases hfpair
  refine ⟨?_, ?_, ?_⟩
  · rintro i ⟨t0, id0⟩ hmem heq
    rcases mem_forwardAdj.1 hmem with ⟨f, hf, hp, hfid⟩
    have hfe : f = e := eq_of_mem_of_nodup_key hE hf he (hfid.trans heq)
    rw [hfe, hpnone] at hp
    cases hp
  · rintro i ⟨s0, id0⟩ hmem heq
    rcases mem_backwardAdj.1 hmem with ⟨f, hf, hp, hfid⟩
    have hfe : f = e := eq_of_mem_of_nodup_key hE hf he (hfid.trans heq)
    rw [hfe, hpnone] at hp
    cases hp
  · refine ⟨_, lookupEdgeAnalysis_eq hE he, rfl, ?_, ?_⟩
    · show edgeIssues ir.nodes ir.edges e = []
      unfold edgeIssues
      rw [List.filterMap_eq_nil_iff]
      intro e0 he0
      by_cases hcs : calmStatus ir.nodes ir.edges e0 = "CalmUnsafe"
      · rw [if_pos hcs]
        rcases ht : nodeIdx ir.nodes e0.target with _ | t
        · rfl
        · simp [hhitall t]
      · rw [if_neg hcs]
    · intro htm
      show calmStatus ir.nodes ir.edges e = "CalmSafe"
      unfold calmStatus
      by_cases hcrit : isCritical ir.nodes e = true
      · rw [if_pos hcrit]
        have hchk : check_edge_calm_safe ir.nodes ir.edges e = true := by
          unfold check_edge_calm_safe
          rw [htm]
        rw [hchk]
        simp
      · rw [if_neg hcrit]

/-- Witness for C8 at an edge both of whose endpoints are missing. -/
theorem missing_endpoint_edge_amended_witness :
    (∀ i st, st ∈ forwardAdj irMissBoth.nodes irMissBoth.edges i →
      st.2 ≠ "e") ∧
    (∀ i st, st ∈ backwardAdj irMissBoth.nodes irMissBoth.edges i →
      st.2 ≠ "e") ∧
    ∃ a, lookupEdgeAnalysis (run_analysis irMissBoth) "e" = some a ∧
      a.is_lattice = is_lattice_type (none : Option String) ∧
      a.issues = [] ∧
      (nodeIdx irMissBoth.nodes "y" = none → a.calm = "CalmSafe") :=
  missing_endpoint_edge_amended irMissBoth (by decide)
    (wEdge "e" "x" "y" (some ["Network"]) none) (by decide)
    (Or.inl (by decide))

/-- C8 as literally stated is false: in `irMissSrc` the edge `e` has a
missing source, yet its recorded CALM status is `"CalmUnsafe"` — its target
resolves to a `Never`-monotone node, so the certification fails rather than
defaulting to `"CalmSafe"`. -/
theorem missing_endpoint_edge_claim_false :
    (irMissSrc.nodes.map Node.id).Nodup ∧
    (irMissSrc.edges.map Edge.id).Nodup ∧
    nodeIdx irMissSrc.nodes "missing" = none ∧
    ∃ a, lookupEdgeAnalysis (run_analysis irMissSrc) "e" = some a ∧
      a.calm = "CalmUnsafe" := by
  refine ⟨by decide, by decide, by decide, ?_⟩
  refine ⟨_, lookupEdgeAnalysis_eq (by decide)
    (show wEdge "e" "missing" "t" (some ["Network"]) none ∈ irMissSrc.edges
      by decide), ?_⟩
  decide

/-!
### Claim C9 — totality and panic freedom
-/

/-- The `.expect(..)` panic branches of `get_node_semantics` are
unreachable: every label reaching them is present in the label table. -/
theorem getNodeSemanticsOpt_isSome (n : Node) :
    (getNodeSemanticsOpt n).isSome = true := by
  have hfold : ∀ lab, isFoldFamily lab = true →
      (get_semantics_by_label lab).isSome = true := by
    intro lab hf
    unfold isFoldFamily at hf
    have hor := of_decide_eq_true hf
    rcases hor with h | h | h | h | h | h <;> subst h <;> decide
  have hred : ∀ label, n.label = some label →
      getNodeSemanticsOpt n =
        (if label = "batch" then
          if (match n.data with
              | some d => is_network_batch d.backtrace
              | none => false) then
            some ⟨NdEffect.Deterministic, Monotonicity.Always⟩
          else get_semantics_by_label label
        else if isFoldFamily label then
          if (match n.data with
              | some d => is_commutative_idempotent_fold d.backtrace
              | none => false) then
            some ⟨NdEffect.Deterministic, Monotonicity.Always⟩
          else get_semantics_by_label label
        else if label = "observenondet" then
          if (match n.data with
              | some d => is_commutative_idempotent_fold d.backtrace
              | none => false) then
            some ⟨NdEffect.Deterministic, Monotonicity.Always⟩
          else get_semantics_by_label label
        else
          some ((get_semantics_by_label label).getD
            (get_semantics n.node_type))) := by
    intro label hl
    unfold getNodeSemanticsOpt
    rw [hl]
  rcases hl : n.label with _ | label
  · unfold getNodeSemanticsOpt
    rw [hl]
    rfl
  · rw [hred label hl]
    by_cases hb : label = "batch"
    · rw [if_pos hb]
      by_cases hnet : (match n.data with
          | some d => is_network_batch d.backtrace
          | none => false) = true
      · rw [if_pos hnet]
        rfl
      · rw [if_neg hnet]
        subst hb
        decide
    · rw [if_neg hb]
      by_cases hff : isFoldFamily label = true
      · rw [if_pos hff]
        by_cases hci : (match n.data with
            | some d => is_commutative_idempotent_fold d.backtrace
            | none => false) = true
        · rw [if_pos hci]
          rfl
        · rw [if_neg hci]
          exact hfold label hff
      · rw [if_neg hff]
        by_cases ho : label = "observenondet"
        · rw [if_pos ho]
          by_cases hci : (match n.data with
              | some d => is_commutative_idempotent_fold d.backtrace
              | none => false) = true
          · rw [if_pos hci]
            rfl
          · rw [if_neg hci]
            subst ho
            decide
        · rw [if_neg ho]
          rfl

/-- C9.  The analysis is total: the node-semantics classifier never reaches
its panic branches, and `run_analysis` assigns an analysis record to every
node id and every edge id of the input, on any graph (cycles and self-loops
included). -/
theorem analysis_total_no_panic (ir : HydroIr) :
    (∀ n ∈ ir.nodes, (getNodeSemanticsOpt n).isSome = true) ∧
    (∀ n ∈ ir.nodes,
      (lookupNodeAnalysis (run_analysis ir) n.id).isSome = true) ∧
    (∀ e ∈ ir.edges,
      (lookupEdgeAnalysis (run_analysis ir) e.id).isSome = true) := by
  refine ⟨fun n _ => getNodeSemanticsOpt_isSome n, ?_, ?_⟩
  · intro n hn
    unfold lookupNodeAnalysis run_analysis
    rw [Option.isSome_map']
    rw [List.find?_isSome]
    rcases List.mem_iff_getElem?.1 hn with ⟨i, hi⟩
    refine ⟨(n.id, _), List.mem_map_of_mem _
      (List.mk_mem_enum_iff_getElem?.2 hi), by simp⟩
  · intro e he'
    unfold lookupEdgeAnalysis run_analysis
    rw [Option.isSome_map']
    rw [List.find?_isSome]
    exact ⟨(e.id, _), List.mem_map_of_mem _ he', by simp⟩

/-- Witness for C9 at a cyclic graph with a self-loop. -/
theorem analysis_total_no_panic_witness :
    ((getNodeSemanticsOpt
        (⟨"0", "Transform", "0", none, some "map", none⟩ : Node)).isSome
      = true) ∧
    ((lookupNodeAnalysis (run_analysis irCyc) "1").isSome = true) ∧
    ((lookupEdgeAnalysis (run_analysis irCyc) "c2").isSome = true) :=
  ⟨(analysis_total_no_panic irCyc).1 _ (by decide),
   (analysis_total_no_panic irCyc).2.1 (wNode "1" "NonDeterministic")
     (by decide),
   (analysis_total_no_panic irCyc).2.2
     (wEdge "c2" "1" "1" (some ["Local"]) none) (by decide)⟩

/-!
### Claim C10 — parallel edges and the last-wins edge map
-/

theorem filterMap_set_congr {α β : Type} (f : α → Option β) :
    ∀ (l : List α) (i : Nat) (x a : α), l[i]? = some a → f x = f a →
      (l.set i x).filterMap f = l.filterMap f := by
  intro l
  induction l with
  | nil =>
    intro i x a h _
    simp at h
  | cons y ys ih =>
    intro i x a h hfx
    cases i with
    | zero =>
      have hy : y = a := by simpa using h
      subst hy
      rw [List.set_cons_zero]
      simp only [List.filterMap_cons, hfx]
    | succ k =>
      rw [List.set_cons_succ]
      simp only [List.filterMap_cons]
      rw [ih k x a (by simpa using h) hfx]

theorem forwardAdj_set_label {nodes : List Node} {edges : List Edge}
    {i : Nat} {ei : Edge} (hi : edges[i]? = some ei) (l : Option String)
    (x : Nat) :
    forwardAdj nodes (edges.set i { ei with label := l }) x =
      forwardAdj nodes edges x := by
  unfold forwardAdj
  exact filterMap_set_congr _ edges i _ ei hi rfl

theorem backwardAdj_set_label {nodes : List Node} {edges : List Edge}
    {i : Nat} {ei : Edge} (hi : edges[i]? = some ei) (l : Option String)
    (x : Nat) :
    backwardAdj nodes (edges.set i { ei with label := l }) x =
      backwardAdj nodes edges x := by
  unfold backwardAdj
  exact filterMap_set_congr _ edges i _ ei hi rfl

theorem backwardReachable_set_label {nodes : List Node} {edges : List Edge}
    {i : Nat} {ei : Edge} (hi : edges[i]? = some ei) (l : Option String) :
    backwardReachable nodes (edges.set i { ei with label := l }) =
      backwardReachable nodes edges := by
  funext t
  unfold backwardReachable
  have hp : preds nodes (edges.set i { ei with label := l }) =
      preds nodes edges := by
    funext x
    unfold preds
    rw [backwardAdj_set_label hi l x]
  rw [hp]

theorem edges_decomp {edges : List Edge} {i : Nat} {ei : Edge}
    (hi : edges[i]? = some ei) :
    edges = edges.take i ++ ei :: edges.drop (i + 1) := by
  rcases List.getElem?_eq_some_iff.1 hi with ⟨hlt, heq⟩
  conv_lhs => rw [← List.take_append_drop i edges]
  rw [List.drop_eq_getElem_cons hlt, heq]

theorem set_decomp {edges : List Edge} {i : Nat} {ei : Edge}
    (hi : edges[i]? = some ei) (x : Edge) :
    edges.set i x = edges.take i ++ x :: edges.drop (i + 1) := by
  rcases List.getElem?_eq_some_iff.1 hi with ⟨hlt, _⟩
  have hTlen : (edges.take i).length = i := by
    rw [List.length_take]
    omega
  conv_lhs => rw [edges_decomp hi]
  rw [List.set_append_right _ _ hTlen.le, hTlen, Nat.sub_self,
    List.set_cons_zero]

theorem drop_mem_of_getElem_gt {edges : List Edge} {i j : Nat} {ej : Edge}
    (hij : i < j) (hj : edges[j]? = some ej) :
    ej ∈ edges.drop (i + 1) := by
  have h : (edges.drop (i + 1))[j - (i + 1)]? = some ej := by
    rw [List.getElem?_drop]
    have harith : i + 1 + (j - (i + 1)) = j := by omega
    rw [harith, hj]
  exact List.getElem?_mem h

/-- Lookups in the `(source, target)` edge map are unchanged when the label
of an edge shadowed by a later parallel edge is modified. -/
theorem edge_map_get_set_label {nodes : List Node} {edges : List Edge}
    {i j : Nat} {ei ej : Edge} (hij : i < j) (hi : edges[i]? = some ei)
    (hj : edges[j]? = some ej) {p : Nat × Nat}
    (hpi : pairOf nodes ei = some p) (hpj : pairOf nodes ej = some p)
    (l : Option String) (q : Nat × Nat) :
    edge_map_get nodes (edges.set i { ei with label := l }) q =
      edge_map_get nodes edges q := by
  have h1 : pairOf nodes { ei with label := l } = pairOf nodes ei := rfl
  unfold edge_map_get
  conv_lhs => rw [set_decomp hi]
  conv_rhs => rw [edges_decomp hi]
  rw [List.reverse_append, List.reverse_cons, List.find?_append,
    List.find?_append, List.reverse_append, List.reverse_cons,
    List.find?_append, List.find?_append]
  by_cases hq : p = q
  · subst hq
    have hsome : ∃ b, (edges.drop (i + 1)).reverse.find?
        (fun e => pairOf nodes e = some p) = some b := by
      apply Option.isSome_iff_exists.1
      rw [List.find?_isSome]
      exact ⟨ej, List.mem_reverse.2 (drop_mem_of_getElem_gt hij hj),
        by simp [hpj]⟩
    rcases hsome with ⟨b, hb⟩
    rw [hb]
    simp
  · have heqp : pairOf nodes { ei with label := l } = pairOf nodes ei := rfl
    have hd1 : decide (pairOf nodes { ei with label := l } = some q)
        = false := by
      rw [heqp, hpi]
      simp [hq]
    have hd2 : decide (pairOf nodes ei = some q) = false := by
      rw [hpi]
      simp [hq]
    rw [List.find?_singleton, List.find?_singleton, hd1, hd2]
    simp

/-- A successful edge-map lookup at the shared pair of a shadowed parallel
edge returns an edge strictly after the shadowed one. -/
theorem edge_map_get_pair_late {nodes : List Node} {edges : List Edge}
    {i j : Nat} {ei ej : Edge} (hij : i < j) (hi : edges[i]? = some ei)
    (hj : edges[j]? = some ej) {p : Nat × Nat}
    (hpj : pairOf nodes ej = some p) {f : Edge}
    (hf : edge_map_get nodes edges p = some f) :
    f ∈ edges.drop (i + 1) := by
  unfold edge_map_get at hf
  rw [edges_decomp hi] at hf
  rw [List.reverse_append, List.reverse_cons, List.find?_append,
    List.find?_append] at hf
  have hsome : ∃ b, (edges.drop (i + 1)).reverse.find?
      (fun e => pairOf nodes e = some p) = some b := by
    apply Option.isSome_iff_exists.1
    rw [List.find?_isSome]
    exact ⟨ej, List.mem_reverse.2 (drop_mem_of_getElem_gt hij hj),
      by simp [hpj]⟩
  rcases hsome with ⟨b, hb⟩
  rw [hb, Option.or_some, Option.or_some] at hf
  have hbf : b = f := Option.some.inj hf
  subst hbf
  exact List.mem_reverse.1 (List.mem_of_find?_eq_some hb)

/-- After modifying the shadowed edge's label, no edge-map lookup returns an
edge with the shadowed edge's id. -/
theorem edge_map_get_set_label_id_ne {nodes : List Node} {edges : List Edge}
    (hE : (edges.map Edge.id).Nodup) {i j : Nat} {ei ej : Edge}
    (hij : i < j) (hi : edges[i]? = some ei) (hj : edges[j]? = some ej)
    {p : Nat × Nat} (hpi : pairOf nodes ei = some p)
    (hpj : pairOf nodes ej = some p) (l : Option String) (q : Nat × Nat)
    {f : Edge}
    (hf : edge_map_get nodes (edges.set i { ei with label := l }) q
      = some f) :
    f.id ≠ ei.id := by
  rw [edge_map_get_set_label hij hi hj hpi hpj l q] at hf
  rcases edge_map_get_spec hf with ⟨hfmem, hfpair⟩
  have hnotin : ei.id ∉ (edges.drop (i + 1)).map Edge.id := by
    have hmapdecomp : edges.map Edge.id =
        (edges.take i).map Edge.id ++
          ei.id :: (edges.drop (i + 1)).map Edge.id := by
      conv_lhs => rw [edges_decomp hi]
      simp
    rw [hmapdecomp] at hE
    have h2 := (List.nodup_append.1 hE).2.1
    exact (List.nodup_cons.1 h2).1
  by_cases hq : p = q
  · subst hq
    have hfD : f ∈ edges.drop (i + 1) :=
      edge_map_get_pair_late hij hi hj hpj hf
    intro hid
    exact hnotin (hid ▸ List.mem_map_of_mem Edge.id hfD)
  · intro hid
    have hfe : f = ei :=
      eq_of_mem_of_nodup_key hE hfmem (List.getElem?_mem hi) hid
    rw [hfe, hpi] at hfpair
    exact hq (Option.some.inj hfpair)

theorem pathEdgesOk_set_label {nodes : List Node} {edges : List Edge}
    {i j : Nat} {ei ej : Edge} (hij : i < j) (hi : edges[i]? = some ei)
    (hj : edges[j]? = some ej) {p : Nat × Nat}
    (hpi : pairOf nodes ei = some p) (hpj : pairOf nodes ej = some p)
    (l : Option String) :
    pathEdgesOk nodes (edges.set i { ei with label := l }) =
      pathEdgesOk nodes edges := by
  have hmg : edge_map_get nodes (edges.set i { ei with label := l }) =
      edge_map_get nodes edges :=
    funext (edge_map_get_set_label hij hi hj hpi hpj l)
  have hfa : forwardAdj nodes (edges.set i { ei with label := l }) =
      forwardAdj nodes edges :=
    funext (forwardAdj_set_label hi l)
  funext R t x
  unfold pathEdgesOk
  rw [hmg, hfa]

theorem check_set_label_inv {nodes : List Node} {edges : List Edge}
    {i j : Nat} {ei ej : Edge} (hij : i < j) (hi : edges[i]? = some ei)
    (hj : edges[j]? = some ej) {p : Nat × Nat}
    (hpi : pairOf nodes ei = some p) (hpj : pairOf nodes ej = some p)
    (l : Option String) (g : Edge) :
    check_edge_calm_safe nodes (edges.set i { ei with label := l }) g =
      check_edge_calm_safe nodes edges g := by
  unfold check_edge_calm_safe
  rw [backwardReachable_set_label hi l,
    pathEdgesOk_set_label hij hi hj hpi hpj l]

theorem calmStatus_set_label_inv {nodes : List Node} {edges : List Edge}
    {i j : Nat} {ei ej : Edge} (hij : i < j) (hi : edges[i]? = some ei)
    (hj : edges[j]? = some ej) {p : Nat × Nat}
    (hpi : pairOf nodes ei = some p) (hpj : pairOf nodes ej = some p)
    (l : Option String) (g : Edge) :
    calmStatus nodes (edges.set i { ei with label := l }) g =
      calmStatus nodes edges g := by
  unfold calmStatus
  rw [check_set_label_inv hij hi hj hpi hpj l]

/-- C10.  When two parallel edges connect the same resolved ordered node
pair, changing the type label of the earlier one changes no edge's CALM
status, and the modified earlier edge receives no `NonLattice` issue: the
edge map consults only the last parallel edge. -/
theorem parallel_edge_shadowing (ir : HydroIr)
    (hE : (ir.edges.map Edge.id).Nodup) (i j : Nat) (hij : i < j)
    (ei ej : Edge) (hi : ir.edges[i]? = some ei)
    (hj : ir.edges[j]? = some ej) (p : Nat × Nat)
    (hpi : pairOf ir.nodes ei = some p) (hpj : pairOf ir.nodes ej = some p)
    (l : Option String) :
    (∀ (k : Nat) (f f' : Edge), ir.edges[k]? = some f →
        (ir.edges.set i { ei with label := l })[k]? = some f' →
        calmStatus ir.nodes (ir.edges.set i { ei with label := l }) f' =
          calmStatus ir.nodes ir.edges f) ∧
    edgeIssues ir.nodes (ir.edges.set i { ei with label := l })
      { ei with label := l } = [] := by
  constructor
  · intro k f f' hk hk'
    by_cases hki : k = i
    · subst hki
      have hf : f = ei := by
        rw [hi] at hk
        exact (Option.some.inj hk).symm
      have hf' : f' = { ei with label := l } := by
        rcases List.getElem?_eq_some_iff.1 hi with ⟨hlt, _⟩
        rw [List.getElem?_set_self (by simpa using hlt)] at hk'
        exact (Option.some.inj hk').symm
      rw [hf, hf']
      have hsame : calmStatus ir.nodes
          (ir.edges.set k { ei with label := l }) { ei with label := l } =
          calmStatus ir.nodes (ir.edges.set k { ei with label := l }) ei :=
        rfl
      rw [hsame, calmStatus_set_label_inv hij hi hj hpi hpj l]
    · have hff' : f' = f := by
        rw [List.getElem?_set_ne (fun hcon => hki hcon.symm)] at hk'
        rw [hk] at hk'
        exact (Option.some.inj hk').symm
      subst hff'
      rw [calmStatus_set_label_inv hij hi hj hpi hpj l]
  · unfold edgeIssues
    rw [List.filterMap_eq_nil_iff]
    intro e0 he0
    by_cases hcs : calmStatus ir.nodes
        (ir.edges.set i { ei with label := l }) e0 = "CalmUnsafe"
    · rw [if_pos hcs]
      rcases ht : nodeIdx ir.nodes e0.target with _ | t
      · rfl
      · have hhit : nonLatticeHit ir.nodes
            (ir.edges.set i { ei with label := l }) t
            { ei with label := l } = false := by
          unfold nonLatticeHit
          rw [decide_eq_false_iff_not]
          rintro ⟨i0, hi0, st, hst, hcond, hlm, hlat⟩
          exact edge_map_get_set_label_id_ne hE hij hi hj hpi hpj l
            (i0, st.1) hlm rfl
        simp [hhit]
    · rw [if_neg hcs]

/-- Witness for C10 at the parallel-edge input `irPar`: relabelling the
earlier edge `e1` with a non-lattice label leaves every CALM status
unchanged and attaches no `NonLattice` issue to it. -/
theorem parallel_edge_shadowing_witness :
    (∀ (k : Nat) (f f' : Edge), irPar.edges[k]? = some f →
        (irPar.edges.set 0 { e1Par with label := some "NotALattice" })[k]?
          = some f' →
        calmStatus irPar.nodes
            (irPar.edges.set 0 { e1Par with label := some "NotALattice" })
            f' =
          calmStatus irPar.nodes irPar.edges f) ∧
    edgeIssues irPar.nodes
      (irPar.edges.set 0 { e1Par with label := some "NotALattice" })
      { e1Par with label := some "NotALattice" } = [] :=
  parallel_edge_shadowing irPar (by decide) 0 1 (by decide) e1Par
    (wEdge "e2" "a" "b" none (some "SetUnion<i32>")) (by decide) (by decide)
    (0, 1) (by decide) (by decide) (some "NotALattice")

end Hydrolysis
